import Mathlib

/-!
Shallow embedding of `src/jni/tiny_cnn/layers/fully_connected_layer.h`
(tiny_cnn's fully-connected layer).

`float_t` is modelled by `ℚ` (exact arithmetic), `vec_t` by `List ℚ`.
C++ `operator[]` on a vector is unchecked; an access past the end is
undefined behaviour.  The embedding models every such access with
`List.getElem?` inside the `Option` monad, so an out-of-bounds access
surfaces as `none` while an in-bounds run returns `some` of the result.
Stateful methods take the layer value and return the updated layer
together with the returned vector.
-/

namespace TinyCnn

/-- The activation strategy (`Activation` template parameter / the
`activation::function` interface): `f` may read the whole pre-activation
vector at an index, `df` maps an output value to a derivative value. -/
structure activation_function where
  f : List ℚ → ℕ → ℚ
  df : ℚ → ℚ

/-- The upstream chain node reached through the `prev_` pointer, reduced to
the capabilities `fully_connected_layer` actually invokes on it:
`output(workerId)` (the cached forward output), `activation_function()`,
`back_propagation(delta, workerId)` and `back_propagation_2nd(delta2)`. -/
structure upstream_node where
  output : ℕ → Option (List ℚ)
  activation : activation_function
  back : List ℚ → ℕ → Option (List ℚ)
  back2 : List ℚ → Option (List ℚ)

/-- Modelled from the spec: the per-worker scratch buffers of the base
class (`layer.h`, not under `src/`): pre-activation `a_`, output
`output_`, upstream-delta `prev_delta_`, and the per-worker gradient
accumulators `dW_`, `db_`. -/
structure worker_storage where
  a_ : List ℚ
  output_ : List ℚ
  prev_delta_ : List ℚ
  dW_ : List ℚ
  db_ : List ℚ

/-- The fully-connected layer state.  Dimensions, the `has_bias_` flag and
the buffers owned through the base class (`W_`, `b_`, `Whessian_`,
`bhessian_`, `prev_delta2_`), the activation `h_`, the per-worker scratch
(indexed by worker id) and the chain links.  `next_` is kept abstract as
the downstream node's forward continuation, matching the only use
`next_->forward_propagation(out, index)`. -/
structure fully_connected_layer where
  in_size_ : ℕ
  out_size_ : ℕ
  has_bias_ : Bool
  W_ : List ℚ
  b_ : List ℚ
  Whessian_ : List ℚ
  bhessian_ : List ℚ
  prev_delta2_ : List ℚ
  h_ : activation_function
  worker_storage_ : List worker_storage
  prev_ : Option upstream_node
  next_ : Option (List ℚ → ℕ → Option (List ℚ))

/-- `sqr(x) = x*x` from `tiny_cnn`'s util header. -/
def sqr (x : ℚ) : ℚ := x * x

/-- Guarded left-to-right sum of `f 0 + f 1 + ... + f (n-1)`, the shape of
the accumulation loops (`a[i] += ...`): any failing read aborts. -/
def osum : ℕ → (ℕ → Option ℚ) → Option ℚ
  | 0, _ => some 0
  | n + 1, f => do
      let s ← osum n f
      let x ← f n
      pure (s + x)

/-- Guarded construction of the list `[g 0, ..., g (n-1)]`, the shape of
loops writing every cell of a buffer in ascending index order. -/
def omap (g : ℕ → Option ℚ) : ℕ → Option (List ℚ)
  | 0 => some []
  | n + 1 => do
      let l ← omap g n
      let x ← g n
      pure (l ++ [x])

/-- Modelled from the spec: `vectorize::dot(&x[0], &W[base], n)`
(`tiny_cnn/util/product.h`, not under `src/`) — the dot product of `x`
with the `n` entries of `W` starting at `base`. -/
def vdot (x W : List ℚ) (base n : ℕ) : Option ℚ :=
  osum n (fun r => do
    let xr ← x[r]?
    let wr ← W[base + r]?
    pure (xr * wr))

/-- Modelled from the spec: the inner multiply-accumulate loop
`dst[base+i] += src[i] * fac` for `i = off, ..., off+k-1`
(`vectorize::muladd` and the equivalent plain Hessian loop). -/
def muladd_go (src : List ℚ) (fac : ℚ) (base : ℕ) : ℕ → ℕ → List ℚ → Option (List ℚ)
  | _, 0, dst => some dst
  | off, k + 1, dst => do
      let x ← src[off]?
      let old ← dst[base + off]?
      muladd_go src fac base (off + 1) k (dst.set (base + off) (old + x * fac))

/-- `vectorize::muladd(&src[0], fac, n, &dst[base])`:
`dst[base+i] += src[i] * fac` for every `i < n`. -/
def vmuladd (src : List ℚ) (fac : ℚ) (n : ℕ) (dst : List ℚ) (base : ℕ) : Option (List ℚ) :=
  muladd_go src fac base 0 n dst

/-- The outer-product accumulation loop over input index `c < cnt`:
for every `c`, `dst[c*out_n+i] += curr[i] * g (src[c])` for every
`i < out_n`.  With `g = id` this is the `dW` loop of `back_propagation`
(lines 95–99); with `g = sqr` it is the `Whessian_` double loop of
`back_propagation_2nd` (lines 119–121). -/
def outer_accum (curr : List ℚ) (g : ℚ → ℚ) (src : List ℚ) (out_n : ℕ) :
    ℕ → List ℚ → Option (List ℚ)
  | 0, dst => some dst
  | c + 1, dst => do
      let d ← outer_accum curr g src out_n c dst
      let s ← src[c]?
      vmuladd curr (g s) out_n d (c * out_n)

/-- The bias-accumulation loop `dst[i] += src[i]` for `i < n`
(`db[i] += curr_delta[i]`, lines 101–104, and
`bhessian_[r] += current_delta2[r]`, lines 123–126). -/
def vec_add_into (src : List ℚ) : ℕ → List ℚ → Option (List ℚ)
  | 0, dst => some dst
  | n + 1, dst => do
      let d ← vec_add_into src n dst
      let x ← src[n]?
      let old ← d[n]?
      pure (d.set n (old + x))

/-- Modelled from the spec: `layer::get_worker_storage(index)` (`layer.h`,
not under `src/`) — the scratch buffers for one worker id. -/
def get_worker_storage (L : fully_connected_layer) (index : ℕ) : Option worker_storage :=
  L.worker_storage_[index]?

/-- The layer with the worker storage at `index` replaced (the net effect
of a method writing through `get_worker_storage(index)`). -/
def upd_worker (L : fully_connected_layer) (index : ℕ) (w : worker_storage) :
    fully_connected_layer :=
  { L with worker_storage_ := L.worker_storage_.set index w }

/-- Worker storage after the forward pass: `a_` and `output_` rewritten. -/
def fwd_ws (ws : worker_storage) (a out : List ℚ) : worker_storage :=
  { ws with a_ := a, output_ := out }

/-- Worker storage after the first-order backward pass: `prev_delta_`
rewritten, `dW_`/`db_` accumulated. -/
def bp_ws (ws : worker_storage) (pd dW db : List ℚ) : worker_storage :=
  { ws with prev_delta_ := pd, dW_ := dW, db_ := db }

/-- Layer state after the second-order pass: `Whessian_`/`bhessian_`
accumulated, `prev_delta2_` rewritten. -/
def h2_state (L : fully_connected_layer) (Wh bh pd2 : List ℚ) : fully_connected_layer :=
  { L with Whessian_ := Wh, bhessian_ := bh, prev_delta2_ := pd2 }

/-- The body of the first `for_i` loop of `forward_propagation`
(lines 62–70): `a[i] = Σ_c W_[c*out_size_+i]*in[c]`, then
`a[i] += b_[i]` when `has_bias_`. -/
def fc_a_i (L : fully_connected_layer) (input : List ℚ) (i : ℕ) : Option ℚ := do
  let s ← osum L.in_size_ (fun c => do
    let w ← L.W_[c * L.out_size_ + i]?
    let x ← input[c]?
    pure (w * x))
  if L.has_bias_ then do
    let bi ← L.b_[i]?
    pure (s + bi)
  else
    pure s

/-- The whole pre-activation buffer written by the first `for_i` loop of
`forward_propagation`. -/
def fc_preactivation (L : fully_connected_layer) (input : List ℚ) : Option (List ℚ) :=
  omap (fc_a_i L input) L.out_size_

/-- `forward_propagation(in, index)` (lines 57–78): fills the worker's
pre-activation `a`, then the worker's output `out[i] = h_.f(a, i)`, and
returns `next_->forward_propagation(out, index)` when a downstream node
exists, else `out`. -/
def forward_propagation (L : fully_connected_layer) (input : List ℚ) (index : ℕ) :
    Option (fully_connected_layer × List ℚ) := do
  let ws ← get_worker_storage L index
  let a ← fc_preactivation L input
  let out := (List.range L.out_size_).map (fun i => L.h_.f a i)
  let L' := upd_worker L index (fwd_ws ws a out)
  match L.next_ with
  | none => pure (L', out)
  | some nxt => do
      let res ← nxt out index
      pure (L', res)

/-- `back_propagation(curr_delta, index)` (lines 80–113): writes the
worker's `prev_delta_[c] = dot(curr_delta, W_[c*out_size_ ..]) *
prev_h.df(prev_out[c])`, accumulates `dW` (outer product) and `db`
(when `has_bias_`), then returns
`prev_->back_propagation(prev_delta_, index)`. -/
def back_propagation (L : fully_connected_layer) (curr_delta : List ℚ) (index : ℕ) :
    Option (fully_connected_layer × List ℚ) := do
  let ws ← get_worker_storage L index
  let u ← L.prev_
  let prev_out ← u.output index
  let prev_delta ← omap (fun c => do
    let d ← vdot curr_delta L.W_ (c * L.out_size_) L.out_size_
    let po ← prev_out[c]?
    pure (d * u.activation.df po)) L.in_size_
  let dW ← outer_accum curr_delta (fun x => x) prev_out L.out_size_ L.in_size_ ws.dW_
  let db ←
    if L.has_bias_ then vec_add_into curr_delta L.out_size_ ws.db_
    else pure ws.db_
  let L' := upd_worker L index (bp_ws ws prev_delta dW db)
  let res ← u.back prev_delta index
  pure (L', res)

/-- `back_propagation_2nd(current_delta2)` (lines 115–140): accumulates
`Whessian_[c*out_size_+r] += current_delta2[r]*sqr(prev_out[c])` and,
when `has_bias_`, `bhessian_[r] += current_delta2[r]`; overwrites
`prev_delta2_[c] = (Σ_r current_delta2[r]*sqr(W_[c*out_size_+r])) *
sqr(prev_h.df(prev_out[c]))`; returns
`prev_->back_propagation_2nd(prev_delta2_)`.  It reads the upstream
output cached for worker id `0` (`prev_->output(0)`, line 116). -/
def back_propagation_2nd (L : fully_connected_layer) (current_delta2 : List ℚ) :
    Option (fully_connected_layer × List ℚ) := do
  let u ← L.prev_
  let prev_out ← u.output 0
  let Wh ← outer_accum current_delta2 sqr prev_out L.out_size_ L.in_size_ L.Whessian_
  let bh ←
    if L.has_bias_ then vec_add_into current_delta2 L.out_size_ L.bhessian_
    else pure L.bhessian_
  let pd2 ← omap (fun c => do
    let s ← osum L.out_size_ (fun r => do
      let x ← current_delta2[r]?
      let w ← L.W_[c * L.out_size_ + r]?
      pure (x * sqr w))
    let po ← prev_out[c]?
    pure (s * sqr (u.activation.df po))) L.in_size_
  let L' := h2_state L Wh bh pd2
  let res ← u.back2 pd2
  pure (L', res)

/-- `connection_size()` (lines 45–47):
`in_size_ * out_size_ + size_t(has_bias_) * out_size_`. -/
def connection_size (L : fully_connected_layer) : ℕ :=
  L.in_size_ * L.out_size_ + (cond L.has_bias_ 1 0) * L.out_size_

/-- `fan_in_size()` (lines 49–51). -/
def fan_in_size (L : fully_connected_layer) : ℕ := L.in_size_

/-- `fan_out_size()` (lines 53–55). -/
def fan_out_size (L : fully_connected_layer) : ℕ := L.out_size_

/-- The constructor (lines 42–43): `Base(in_dim, out_dim,
in_dim*out_dim, has_bias ? out_dim : 0)`.  Modelled from the spec for
the base-class part (`layer.h`, not under `src/`): the base allocates
`W`/`dW`/`WHessian` at the weight dimension and `b`/`db`/`bHessian` at
the given bias dimension, zero-filled until an external initializer
runs, with per-worker scratch sized to the layer dimensions. -/
def mk_fully_connected_layer (in_dim out_dim : ℕ) (has_bias : Bool)
    (h : activation_function) (nworkers : ℕ) : fully_connected_layer :=
  { in_size_ := in_dim
    out_size_ := out_dim
    has_bias_ := has_bias
    W_ := List.replicate (in_dim * out_dim) 0
    b_ := List.replicate (if has_bias then out_dim else 0) 0
    Whessian_ := List.replicate (in_dim * out_dim) 0
    bhessian_ := List.replicate (if has_bias then out_dim else 0) 0
    prev_delta2_ := List.replicate in_dim 0
    h_ := h
    worker_storage_ := List.replicate nworkers
      ({ a_ := List.replicate out_dim 0
         output_ := List.replicate out_dim 0
         prev_delta_ := List.replicate in_dim 0
         dW_ := List.replicate (in_dim * out_dim) 0
         db_ := List.replicate (if has_bias then out_dim else 0) 0 } : worker_storage)
    prev_ := none
    next_ := none }

/-- The pre-activation value the spec ascribes to output `i`:
`a[i] = Σ_c W[c*out_size+i]*input[c]`, plus `b[i]` when `hasBias`. -/
def denseA (L : fully_connected_layer) (input : List ℚ) (i : ℕ) : ℚ :=
  ((List.range L.in_size_).map
    (fun c => L.W_.getD (c * L.out_size_ + i) 0 * input.getD c 0)).sum
  + (if L.has_bias_ then L.b_.getD i 0 else 0)

/-- The upstream delta the spec ascribes to input `c`:
`prevDelta[c] = dot(currDelta, W[c*out_size .. c*out_size+out_size))
* upstream.activation.df(upstreamOutput[c])`. -/
def prevDeltaSpec (L : fully_connected_layer) (u : upstream_node)
    (curr prev_out : List ℚ) : List ℚ :=
  (List.range L.in_size_).map (fun c =>
    ((List.range L.out_size_).map
      (fun r => curr.getD r 0 * L.W_.getD (c * L.out_size_ + r) 0)).sum
    * u.activation.df (prev_out.getD c 0))

/-- The propagated second-order delta the spec ascribes to input `c`:
`prevDelta2[c] = (Σ_r currDelta2[r]*W[c*out_size+r]^2)
* upstream.activation.df(upstreamOutput[c])^2`. -/
def prevDelta2Spec (L : fully_connected_layer) (u : upstream_node)
    (curr2 prev_out : List ℚ) : List ℚ :=
  (List.range L.in_size_).map (fun c =>
    ((List.range L.out_size_).map
      (fun r => curr2.getD r 0 * sqr (L.W_.getD (c * L.out_size_ + r) 0))).sum
    * sqr (u.activation.df (prev_out.getD c 0)))

/-- The observable outcome of the second-order pass: the Hessian
accumulators and propagated buffer it writes and the vector it returns
(projecting away layer state the pass does not touch). -/
def hess_view (p : fully_connected_layer × List ℚ) :
    List ℚ × List ℚ × List ℚ × List ℚ :=
  (p.1.Whessian_, p.1.bhessian_, p.1.prev_delta2_, p.2)

/-- The second-order pass as a function of exactly the data it reads:
the dimensions, the bias flag, `W_`/`Whessian_`/`bhessian_`, and the
upstream capabilities it invokes (`output(0)`, `df`, the recursive
second-order call).  Mirrors the body of `back_propagation_2nd`. -/
def back2_core (ins outs : ℕ) (hb : Bool) (W Wh bh : List ℚ)
    (pout : Option (List ℚ)) (df : ℚ → ℚ) (bk2 : List ℚ → Option (List ℚ))
    (curr2 : List ℚ) : Option (List ℚ × List ℚ × List ℚ × List ℚ) := do
  let prev_out ← pout
  let WhN ← outer_accum curr2 sqr prev_out outs ins Wh
  let bhN ← if hb then vec_add_into curr2 outs bh else pure bh
  let pd2 ← omap (fun c => do
    let s ← osum outs (fun r => do
      let x ← curr2[r]?
      let w ← W[c * outs + r]?
      pure (x * sqr w))
    let po ← prev_out[c]?
    pure (s * sqr (df po))) ins
  let res ← bk2 pd2
  pure (WhN, bhN, pd2, res)

/-! Concrete instances used to exercise the theorems. -/

/-- The identity activation of the spec's worked example:
`f(a, i) = a[i]`, `df = 1`. -/
def idAct : activation_function := { f := fun a i => a.getD i 0, df := fun _ => 1 }

/-- Worker storage for the worked example (`in_size = 2`, `out_size = 1`). -/
def exws : worker_storage :=
  { a_ := [0], output_ := [0], prev_delta_ := [0, 0], dW_ := [0, 0], db_ := [0] }

/-- The spec's worked example layer: `in_size=2, out_size=1, hasBias=true`,
`W=[0.5,-0.5]`, `b=[0.1]`, identity activation, one worker, terminal
(no `prev_`/`next_`). -/
def exL : fully_connected_layer :=
  { in_size_ := 2, out_size_ := 1, has_bias_ := true,
    W_ := [1/2, -1/2], b_ := [1/10],
    Whessian_ := [0, 0], bhessian_ := [0], prev_delta2_ := [0, 0],
    h_ := idAct, worker_storage_ := [exws], prev_ := none, next_ := none }

/-- The state `exL` reaches after `forward_propagation([2,4], 0)`. -/
def exLf : fully_connected_layer :=
  { exL with worker_storage_ := [{ exws with a_ := [-9/10], output_ := [-9/10] }] }

/-- An upstream node caching output `[2]` for every worker id, with
`df = id` (so `df(2) = 2`) and terminal backward passes that return the
delta they receive. -/
def exU : upstream_node :=
  { output := fun _ => some [2]
    activation := { f := fun a i => a.getD i 0, df := fun x => x }
    back := fun v _ => some v
    back2 := fun v => some v }

/-- As `exU`, but caching a different output vector for every worker id
other than 0 — only the worker-0 cache agrees with `exU`. -/
def exU2 : upstream_node :=
  { exU with output := fun i => if i = 0 then some [2] else some [99] }

/-- Worker storage for the backward examples (`in_size = out_size = 1`),
with nonzero prior gradient accumulators. -/
def exwsB : worker_storage :=
  { a_ := [0], output_ := [0], prev_delta_ := [0], dW_ := [10], db_ := [20] }

/-- A biased 1×1 layer linked to `exU`, used by the backward-pass
theorems: `W=[3]`, `b=[5]`, prior `Whessian=[100]`, `bhessian=[200]`. -/
def exB : fully_connected_layer :=
  { in_size_ := 1, out_size_ := 1, has_bias_ := true,
    W_ := [3], b_ := [5],
    Whessian_ := [100], bhessian_ := [200], prev_delta2_ := [0],
    h_ := idAct, worker_storage_ := [exwsB], prev_ := some exU, next_ := none }

/-- The state `exB` reaches after `back_propagation([7], 0)`:
`prev_delta = [7*3*2] = [42]`, `dW = [10 + 7*2] = [24]`,
`db = [20 + 7] = [27]`. -/
def exB' : fully_connected_layer :=
  { exB with worker_storage_ :=
      [{ exwsB with prev_delta_ := [42], dW_ := [24], db_ := [27] }] }

/-- Worker storage of `exB0`: as `exwsB` but with a zero-length `db_`. -/
def exwsB0 : worker_storage := { exwsB with db_ := [] }

/-- The no-bias variant of `exB`. -/
def exB0 : fully_connected_layer :=
  { exB with
      has_bias_ := false
      b_ := []
      bhessian_ := []
      worker_storage_ := [exwsB0] }

/-- Worker storage of `exB0` after `back_propagation([7], 0)`. -/
def exwsB0' : worker_storage :=
  { exwsB with prev_delta_ := [42], dW_ := [24], db_ := [] }

/-- The state `exB0` reaches after `back_propagation([7], 0)`. -/
def exB0' : fully_connected_layer :=
  { exB0 with worker_storage_ := [exwsB0'] }

/-- The state `exB0` reaches after `back_propagation_2nd([9])`:
`Whessian = [100 + 9*2^2] = [136]`, `prev_delta2 = [9*3^2*2^2] = [324]`. -/
def exB0h : fully_connected_layer :=
  { exB0 with Whessian_ := [136], prev_delta2_ := [324] }

/-- A 1×1 no-bias layer with `W=[1]` and identity activation, used to
probe the dimension-checking behaviour. -/
def exL5 : fully_connected_layer :=
  { in_size_ := 1, out_size_ := 1, has_bias_ := false,
    W_ := [1], b_ := [],
    Whessian_ := [0], bhessian_ := [], prev_delta2_ := [0],
    h_ := idAct,
    worker_storage_ :=
      [{ a_ := [0], output_ := [0], prev_delta_ := [0], dW_ := [0], db_ := [] }],
    prev_ := none, next_ := none }

end TinyCnn

namespace TinyCnn

/-! Basic list-access lemmas. -/

lemma getElem?_eq_some_getD {l : List ℚ} {i : ℕ} (h : i < l.length) :
    l[i]? = some (l.getD i 0) := by
  rw [List.getD_eq_getElem?_getD, List.getElem?_eq_getElem h]
  rfl

lemma getD_set_self {l : List ℚ} {i : ℕ} {a : ℚ} (h : i < l.length) :
    (l.set i a).getD i 0 = a := by
  simp [List.getD_eq_getElem?_getD, List.getElem?_set, h]

lemma getD_set_ne {l : List ℚ} {i j : ℕ} {a : ℚ} (h : i ≠ j) :
    (l.set i a).getD j 0 = l.getD j 0 := by
  simp [List.getD_eq_getElem?_getD, List.getElem?_set, h]

lemma idx_lt {c i inn out : ℕ} (hc : c < inn) (hi : i < out) :
    c * out + i < inn * out := by
  have h1 : c * out + i < (c + 1) * out := by rw [Nat.succ_mul]; omega
  have h2 : (c + 1) * out ≤ inn * out := Nat.mul_le_mul_right out hc
  omega

/-! Characterizations of the loop combinators. -/

lemma osum_eq {n : ℕ} {f : ℕ → Option ℚ} {g : ℕ → ℚ}
    (h : ∀ c < n, f c = some (g c)) :
    osum n f = some (((List.range n).map g).sum) := by
  induction n with
  | zero => simp [osum]
  | succ n ih =>
      simp [osum, ih (fun c hc => h c (Nat.lt_succ_of_lt hc)),
        h n (Nat.lt_succ_self n), List.range_succ]

lemma omap_eq {f : ℕ → Option ℚ} {g : ℕ → ℚ} {n : ℕ}
    (h : ∀ i < n, f i = some (g i)) :
    omap f n = some ((List.range n).map g) := by
  induction n with
  | zero => simp [omap]
  | succ n ih =>
      simp [omap, ih (fun i hi => h i (Nat.lt_succ_of_lt hi)),
        h n (Nat.lt_succ_self n), List.range_succ]

lemma muladd_go_spec (src : List ℚ) (fac : ℚ) (base : ℕ) :
    ∀ k off dst, off + k ≤ src.length → base + off + k ≤ dst.length →
    ∃ d, muladd_go src fac base off k dst = some d ∧ d.length = dst.length ∧
      ∀ j < dst.length,
        d.getD j 0 =
          if base + off ≤ j ∧ j < base + off + k
          then dst.getD j 0 + src.getD (j - base) 0 * fac
          else dst.getD j 0 := by
  intro k
  induction k with
  | zero =>
      intro off dst _ _
      exact ⟨dst, rfl, rfl, fun j _ => by rw [if_neg (by omega)]⟩
  | succ k ih =>
      intro off dst hsrc hdst
      have hoff : off < src.length := by omega
      have hbo : base + off < dst.length := by omega
      obtain ⟨d, hd, hlen, hget⟩ :=
        ih (off + 1) (dst.set (base + off) (dst.getD (base + off) 0 + src.getD off 0 * fac))
          (by omega) (by rw [List.length_set]; omega)
      refine ⟨d, ?_, ?_, ?_⟩
      · rw [muladd_go, getElem?_eq_some_getD hoff, getElem?_eq_some_getD hbo]
        simpa using hd
      · rw [hlen, List.length_set]
      · intro j hj
        have hj' : j < (dst.set (base + off)
            (dst.getD (base + off) 0 + src.getD off 0 * fac)).length := by
          rw [List.length_set]; exact hj
        by_cases hc : base + off ≤ j ∧ j < base + off + (k + 1)
        · rw [if_pos hc]
          by_cases he : j = base + off
          · subst he
            rw [hget _ hj', if_neg (by omega), getD_set_self hbo]
            have : base + off - base = off := by omega
            rw [this]
          · rw [hget _ hj', if_pos (by omega), getD_set_ne (by omega)]
        · rw [if_neg hc]
          rw [hget _ hj', if_neg (by omega), getD_set_ne (by omega)]

lemma vmuladd_spec (src : List ℚ) (fac : ℚ) (n : ℕ) (dst : List ℚ) (base : ℕ)
    (hsrc : n ≤ src.length) (hdst : base + n ≤ dst.length) :
    ∃ d, vmuladd src fac n dst base = some d ∧ d.length = dst.length ∧
      ∀ j < dst.length,
        d.getD j 0 =
          if base ≤ j ∧ j < base + n
          then dst.getD j 0 + src.getD (j - base) 0 * fac
          else dst.getD j 0 := by
  obtain ⟨d, hd, hlen, hget⟩ :=
    muladd_go_spec src fac base n 0 dst (by omega) (by omega)
  exact ⟨d, hd, hlen, fun j hj => by
    rw [hget j hj]
    by_cases hc : base ≤ j ∧ j < base + n
    · rw [if_pos (by omega), if_pos hc]
    · rw [if_neg (by omega), if_neg hc]⟩

lemma outer_accum_spec (curr src : List ℚ) (g : ℚ → ℚ) (out_n : ℕ) :
    ∀ cnt dst, out_n ≤ curr.length → cnt ≤ src.length → cnt * out_n ≤ dst.length →
    ∃ d, outer_accum curr g src out_n cnt dst = some d ∧ d.length = dst.length ∧
      (∀ c < cnt, ∀ i < out_n,
        d.getD (c * out_n + i) 0 =
          dst.getD (c * out_n + i) 0 + curr.getD i 0 * g (src.getD c 0)) ∧
      (∀ j < dst.length, cnt * out_n ≤ j → d.getD j 0 = dst.getD j 0) := by
  intro cnt
  induction cnt with
  | zero =>
      intro dst _ _ _
      exact ⟨dst, rfl, rfl, fun c hc => absurd hc (Nat.not_lt_zero c), fun j _ _ => rfl⟩
  | succ cnt ih =>
      intro dst hcurr hsrc hdst
      have hmul : (cnt + 1) * out_n = cnt * out_n + out_n := Nat.succ_mul cnt out_n
      obtain ⟨d1, hd1, hlen1, hprop1, hfree1⟩ := ih dst hcurr (by omega) (by omega)
      have hc : cnt < src.length := by omega
      obtain ⟨d, hd, hlen, hget⟩ :=
        vmuladd_spec curr (g (src.getD cnt 0)) out_n d1 (cnt * out_n)
          hcurr (by rw [hlen1]; omega)
      refine ⟨d, ?_, hlen.trans hlen1, ?_, ?_⟩
      · rw [outer_accum, hd1, getElem?_eq_some_getD hc]
        simpa using hd
      · intro c hcc i hi
        have hj : c * out_n + i < dst.length := by
          have := idx_lt hcc hi
          omega
        have hj1 : c * out_n + i < d1.length := by rw [hlen1]; exact hj
        by_cases hlt : c < cnt
        · have hblock : c * out_n + i < cnt * out_n := idx_lt hlt hi
          rw [hget _ hj1, if_neg (by omega)]
          exact hprop1 c hlt i hi
        · have hceq : c = cnt := by omega
          subst hceq
          rw [hget _ hj1, if_pos (by omega)]
          have hsub : c * out_n + i - c * out_n = i := by omega
          rw [hsub, hfree1 _ hj (by omega)]
      · intro j hj hge
        have hj1 : j < d1.length := by rw [hlen1]; exact hj
        rw [hget _ hj1, if_neg (by omega)]
        exact hfree1 j hj (by omega)

lemma vec_add_into_spec (src : List ℚ) :
    ∀ n dst, n ≤ src.length → n ≤ dst.length →
    ∃ d, vec_add_into src n dst = some d ∧ d.length = dst.length ∧
      (∀ i < n, d.getD i 0 = dst.getD i 0 + src.getD i 0) ∧
      (∀ j < dst.length, n ≤ j → d.getD j 0 = dst.getD j 0) := by
  intro n
  induction n with
  | zero =>
      intro dst _ _
      exact ⟨dst, rfl, rfl, fun i hi => absurd hi (Nat.not_lt_zero i), fun j _ _ => rfl⟩
  | succ n ih =>
      intro dst hsrc hdst
      obtain ⟨d1, hd1, hlen1, hprop1, hfree1⟩ := ih dst (by omega) (by omega)
      have hn : n < src.length := by omega
      have hn1 : n < d1.length := by rw [hlen1]; omega
      refine ⟨d1.set n (d1.getD n 0 + src.getD n 0), ?_, ?_, ?_, ?_⟩
      · rw [vec_add_into, hd1, getElem?_eq_some_getD hn]
        show Option.bind d1[n]?
          (fun old => some (d1.set n (old + src.getD n 0))) = _
        rw [getElem?_eq_some_getD hn1]
        rfl
      · rw [List.length_set, hlen1]
      · intro i hi
        by_cases he : i = n
        · subst he
          rw [getD_set_self hn1, hfree1 i (by omega) (le_refl i)]
        · rw [getD_set_ne (by omega)]
          exact hprop1 i (by omega)
      · intro j hj hge
        rw [getD_set_ne (by omega)]
        exact hfree1 j hj (by omega)

/-! The forward pass computes the spec's pre-activation formula. -/

lemma fc_a_i_eq (L : fully_connected_layer) (input : List ℚ) {i : ℕ}
    (hW : L.W_.length = L.in_size_ * L.out_size_)
    (hin : L.in_size_ ≤ input.length)
    (hb : L.has_bias_ = true → L.out_size_ ≤ L.b_.length)
    (hi : i < L.out_size_) :
    fc_a_i L input i = some (denseA L input i) := by
  have hsum : osum L.in_size_ (fun c => do
      let w ← L.W_[c * L.out_size_ + i]?
      let x ← input[c]?
      pure (w * x)) =
      some (((List.range L.in_size_).map
        (fun c => L.W_.getD (c * L.out_size_ + i) 0 * input.getD c 0)).sum) := by
    refine osum_eq (fun c hc => ?_)
    rw [getElem?_eq_some_getD (by rw [hW]; exact idx_lt hc hi),
      getElem?_eq_some_getD (lt_of_lt_of_le hc hin)]
    rfl
  rw [fc_a_i, hsum]
  cases hbias : L.has_bias_ with
  | false => simp [denseA, hbias]
  | true =>
      rw [getElem?_eq_some_getD (lt_of_lt_of_le hi (hb hbias))]
      simp [denseA, hbias]

lemma fc_preactivation_eq (L : fully_connected_layer) (input : List ℚ)
    (hW : L.W_.length = L.in_size_ * L.out_size_)
    (hin : L.in_size_ ≤ input.length)
    (hb : L.has_bias_ = true → L.out_size_ ≤ L.b_.length) :
    fc_preactivation L input = some ((List.range L.out_size_).map (denseA L input)) :=
  omap_eq (fun _ hi => fc_a_i_eq L input hW hin hb hi)

/-- C1: for every weight buffer, bias buffer, input of (at least) length
`in_size` and valid worker id, `forward_propagation` on a terminal layer
stores the pre-activation `a[i] = Σ_c W[c*out_size+i]*input[c]` (plus
`b[i]` when `hasBias`) — the `denseA` formula — then the output
`out[i] = activation.f(a, i)`, and returns that output. -/
theorem forward_propagation_spec (L : fully_connected_layer) (input : List ℚ)
    (idx : ℕ) (ws : worker_storage)
    (hW : L.W_.length = L.in_size_ * L.out_size_)
    (hin : L.in_size_ ≤ input.length)
    (hb : L.has_bias_ = true → L.out_size_ ≤ L.b_.length)
    (hws : L.worker_storage_[idx]? = some ws)
    (hnext : L.next_ = none) :
    forward_propagation L input idx =
      some (upd_worker L idx
              (fwd_ws ws ((List.range L.out_size_).map (denseA L input))
                ((List.range L.out_size_).map
                  (fun i => L.h_.f ((List.range L.out_size_).map (denseA L input)) i))),
            (List.range L.out_size_).map
              (fun i => L.h_.f ((List.range L.out_size_).map (denseA L input)) i)) := by
  rw [forward_propagation, get_worker_storage, hws,
    fc_preactivation_eq L input hW hin hb]
  simp [hnext]

/-- Witness for C1: the spec's worked example.  Instantiating the theorem
at `exL` with input `[2,4]` and worker id 0, and the resulting output is
`[-0.9]` (`0.5*2 + (-0.5)*4 + 0.1 = -0.9` under the identity
activation). -/
theorem forward_propagation_spec_witness :
    (forward_propagation exL [2, 4] 0 =
      some (upd_worker exL 0
              (fwd_ws exws ((List.range exL.out_size_).map (denseA exL [2, 4]))
                ((List.range exL.out_size_).map
                  (fun i => exL.h_.f ((List.range exL.out_size_).map (denseA exL [2, 4])) i))),
            (List.range exL.out_size_).map
              (fun i => exL.h_.f ((List.range exL.out_size_).map (denseA exL [2, 4])) i))) ∧
    (forward_propagation exL [2, 4] 0).map (fun p => p.2) = some [-9/10] :=
  ⟨forward_propagation_spec exL [2, 4] 0 exws (by decide) (by decide)
      (fun _ => by decide) rfl rfl,
    by with_unfolding_all rfl⟩

/-! The first-order backward pass. -/

lemma vdot_eq {curr W : List ℚ} {base n : ℕ}
    (hc : n ≤ curr.length) (hW : base + n ≤ W.length) :
    vdot curr W base n =
      some (((List.range n).map (fun r => curr.getD r 0 * W.getD (base + r) 0)).sum) := by
  rw [vdot]
  refine osum_eq (fun r hr => ?_)
  rw [getElem?_eq_some_getD (lt_of_lt_of_le hr hc),
    getElem?_eq_some_getD (show base + r < W.length by omega)]
  rfl

lemma row_bound {c : ℕ} (L : fully_connected_layer)
    (hW : L.W_.length = L.in_size_ * L.out_size_) (hc : c < L.in_size_) :
    c * L.out_size_ + L.out_size_ ≤ L.W_.length := by
  rw [hW, ← Nat.succ_mul]
  exact Nat.mul_le_mul_right L.out_size_ hc

lemma prev_delta_eq (L : fully_connected_layer) (u : upstream_node)
    (curr prev_out : List ℚ)
    (hW : L.W_.length = L.in_size_ * L.out_size_)
    (hcurr : L.out_size_ ≤ curr.length)
    (hpo : L.in_size_ ≤ prev_out.length) :
    omap (fun c => do
      let d ← vdot curr L.W_ (c * L.out_size_) L.out_size_
      let po ← prev_out[c]?
      pure (d * u.activation.df po)) L.in_size_ =
    some (prevDeltaSpec L u curr prev_out) := by
  rw [prevDeltaSpec]
  refine omap_eq (fun c hc => ?_)
  rw [vdot_eq hcurr (row_bound L hW hc),
    getElem?_eq_some_getD (lt_of_lt_of_le hc hpo)]
  rfl

lemma back_propagation_eq (L : fully_connected_layer) (curr : List ℚ) (idx : ℕ)
    (ws : worker_storage) (u : upstream_node) (prev_out : List ℚ)
    (hws : L.worker_storage_[idx]? = some ws)
    (hu : L.prev_ = some u)
    (hout : u.output idx = some prev_out)
    (hW : L.W_.length = L.in_size_ * L.out_size_)
    (hcurr : L.out_size_ ≤ curr.length)
    (hpo : L.in_size_ ≤ prev_out.length)
    (hdW : ws.dW_.length = L.in_size_ * L.out_size_)
    (hdb : L.has_bias_ = true → L.out_size_ ≤ ws.db_.length) :
    ∃ dW db,
      back_propagation L curr idx =
        (u.back (prevDeltaSpec L u curr prev_out) idx).map
          (fun res => (upd_worker L idx
            (bp_ws ws (prevDeltaSpec L u curr prev_out) dW db), res)) ∧
      dW.length = ws.dW_.length ∧ db.length = ws.db_.length ∧
      (∀ c < L.in_size_, ∀ i < L.out_size_,
        dW.getD (c * L.out_size_ + i) 0 =
          ws.dW_.getD (c * L.out_size_ + i) 0 + curr.getD i 0 * prev_out.getD c 0) ∧
      (L.has_bias_ = true → ∀ i < L.out_size_,
        db.getD i 0 = ws.db_.getD i 0 + curr.getD i 0) ∧
      (L.has_bias_ = false → db = ws.db_) := by
  obtain ⟨dW, hdWeq, hdWlen, hdWprop, _⟩ :=
    outer_accum_spec curr prev_out (fun x => x) L.out_size_ L.in_size_ ws.dW_
      hcurr hpo (le_of_eq hdW.symm)
  have hpd := prev_delta_eq L u curr prev_out hW hcurr hpo
  simp only [Option.bind_eq_bind] at hpd
  cases hbias : L.has_bias_ with
  | false =>
      refine ⟨dW, ws.db_, ?_, hdWlen, rfl,
        hdWprop, fun ht => by simp [hbias] at ht, fun _ => rfl⟩
      rw [back_propagation, get_worker_storage, hws]
      simp only [Option.bind_eq_bind, Option.some_bind]
      rw [hu]
      simp only [Option.some_bind]
      rw [hout]
      simp only [Option.some_bind]
      rw [hpd]
      simp only [Option.some_bind]
      rw [hdWeq]
      simp only [Option.some_bind, hbias, Bool.false_eq_true, if_false]
      simp only [pure, Option.some_bind]
      cases u.back (prevDeltaSpec L u curr prev_out) idx <;> rfl
  | true =>
      obtain ⟨db, hdbeq, hdblen, hdbprop, _⟩ :=
        vec_add_into_spec curr L.out_size_ ws.db_ hcurr (hdb hbias)
      refine ⟨dW, db, ?_, hdWlen,
        hdblen, hdWprop, fun _ i hi => hdbprop i hi,
        fun hf => by simp [hbias] at hf⟩
      rw [back_propagation, get_worker_storage, hws]
      simp only [Option.bind_eq_bind, Option.some_bind]
      rw [hu]
      simp only [Option.some_bind]
      rw [hout]
      simp only [Option.some_bind]
      rw [hpd]
      simp only [Option.some_bind]
      rw [hdWeq]
      simp only [Option.some_bind, hbias, if_true]
      rw [hdbeq]
      simp only [Option.some_bind]
      cases u.back (prevDeltaSpec L u curr prev_out) idx <;> rfl

/-- C2: for every `currDelta` of length `out_size`, `back_propagation`
sets the upstream delta to `prevDelta[c] = dot(currDelta,
W[c*out_size .. c*out_size+out_size)) *
upstream.activation.df(upstreamOutput[c])` — the `prevDeltaSpec`
formula, with `upstreamOutput` the upstream's cached output for the same
worker id — and then recurses into the upstream node's backward pass
with `prevDelta` and the same worker id, returning its result. -/
theorem back_propagation_delta_spec (L : fully_connected_layer) (curr : List ℚ)
    (idx : ℕ) (ws : worker_storage) (u : upstream_node) (prev_out : List ℚ)
    (hws : L.worker_storage_[idx]? = some ws)
    (hu : L.prev_ = some u)
    (hout : u.output idx = some prev_out)
    (hW : L.W_.length = L.in_size_ * L.out_size_)
    (hcurr : L.out_size_ ≤ curr.length)
    (hpo : L.in_size_ ≤ prev_out.length)
    (hdW : ws.dW_.length = L.in_size_ * L.out_size_)
    (hdb : L.has_bias_ = true → L.out_size_ ≤ ws.db_.length) :
    ∃ L', back_propagation L curr idx =
      (u.back (prevDeltaSpec L u curr prev_out) idx).map (fun res => (L', res)) := by
  obtain ⟨dW, db, heq, _⟩ :=
    back_propagation_eq L curr idx ws u prev_out hws hu hout hW hcurr hpo hdW hdb
  exact ⟨_, heq⟩

/-- Witness for C2: on the concrete 1×1 layer `exB` (`W=[3]`, upstream
output `[2]`, `df = id`) with `currDelta = [7]`, `back_propagation`
equals the upstream backward pass applied to the computed
`prevDeltaSpec` (which evaluates to `[42]`). -/
theorem back_propagation_delta_spec_witness :
    ∃ L', back_propagation exB [7] 0 =
      (exU.back (prevDeltaSpec exB exU [7] [2]) 0).map (fun res => (L', res)) :=
  back_propagation_delta_spec exB [7] 0 exwsB exU [2] rfl rfl rfl
    (by decide) (by decide) (by decide) (by decide) (fun _ => by decide)

/-- C3: `back_propagation` accumulates (adds to, never overwrites) the
per-worker gradients: after the call, `dW[c*out_size+i]` equals its
prior value plus `currDelta[i]*upstreamOutput[c]`, and, when `hasBias`,
`db[i]` equals its prior value plus `currDelta[i]` (with `db` untouched
otherwise). -/
theorem back_propagation_gradient_spec (L : fully_connected_layer) (curr : List ℚ)
    (idx : ℕ) (ws : worker_storage) (u : upstream_node) (prev_out : List ℚ)
    (hws : L.worker_storage_[idx]? = some ws)
    (hu : L.prev_ = some u)
    (hout : u.output idx = some prev_out)
    (hW : L.W_.length = L.in_size_ * L.out_size_)
    (hcurr : L.out_size_ ≤ curr.length)
    (hpo : L.in_size_ ≤ prev_out.length)
    (hdW : ws.dW_.length = L.in_size_ * L.out_size_)
    (hdb : L.has_bias_ = true → L.out_size_ ≤ ws.db_.length) :
    ∀ L' res, back_propagation L curr idx = some (L', res) →
      ∃ ws', L'.worker_storage_[idx]? = some ws' ∧
        ws'.dW_.length = ws.dW_.length ∧ ws'.db_.length = ws.db_.length ∧
        (∀ c < L.in_size_, ∀ i < L.out_size_,
          ws'.dW_.getD (c * L.out_size_ + i) 0 =
            ws.dW_.getD (c * L.out_size_ + i) 0 + curr.getD i 0 * prev_out.getD c 0) ∧
        (L.has_bias_ = true → ∀ i < L.out_size_,
          ws'.db_.getD i 0 = ws.db_.getD i 0 + curr.getD i 0) ∧
        (L.has_bias_ = false → ws'.db_ = ws.db_) := by
  obtain ⟨dW, db, heq, hdWlen, hdblen, hdWprop, hdbprop, hdbfree⟩ :=
    back_propagation_eq L curr idx ws u prev_out hws hu hout hW hcurr hpo hdW hdb
  intro L' res h
  rw [heq] at h
  have hidx : idx < L.worker_storage_.length :=
    (List.getElem?_eq_some.mp hws).1
  cases hU : u.back (prevDeltaSpec L u curr prev_out) idx with
  | none => rw [hU] at h; simp at h
  | some r =>
      rw [hU] at h
      simp only [Option.map_some'] at h
      have hpair := Option.some.inj h
      have hL' : upd_worker L idx (bp_ws ws (prevDeltaSpec L u curr prev_out) dW db) = L' :=
        congrArg Prod.fst hpair
      subst hL'
      refine ⟨bp_ws ws (prevDeltaSpec L u curr prev_out) dW db, ?_, hdWlen, hdblen,
        hdWprop, hdbprop, hdbfree⟩
      simp [upd_worker, List.getElem?_set, hidx]

/-- Witness for C3: on `exB` with `currDelta = [7]` and upstream output
`[2]`, the call succeeds (result state `exB'`) and the accumulated
gradients satisfy `dW[0] = 10 + 7*2` and `db[0] = 20 + 7`. -/
theorem back_propagation_gradient_spec_witness :
    ∃ ws', exB'.worker_storage_[0]? = some ws' ∧
      ws'.dW_.length = exwsB.dW_.length ∧ ws'.db_.length = exwsB.db_.length ∧
      (∀ c < exB.in_size_, ∀ i < exB.out_size_,
        ws'.dW_.getD (c * exB.out_size_ + i) 0 =
          exwsB.dW_.getD (c * exB.out_size_ + i) 0 +
            ([7] : List ℚ).getD i 0 * ([2] : List ℚ).getD c 0) ∧
      (exB.has_bias_ = true → ∀ i < exB.out_size_,
        ws'.db_.getD i 0 = exwsB.db_.getD i 0 + ([7] : List ℚ).getD i 0) ∧
      (exB.has_bias_ = false → ws'.db_ = exwsB.db_) :=
  back_propagation_gradient_spec exB [7] 0 exwsB exU [2] rfl rfl rfl
    (by decide) (by decide) (by decide) (by decide) (fun _ => by decide)
    exB' [42] (by with_unfolding_all rfl)

/-! The second-order backward pass. -/

lemma prev_delta2_eq (L : fully_connected_layer) (u : upstream_node)
    (curr2 prev_out : List ℚ)
    (hW : L.W_.length = L.in_size_ * L.out_size_)
    (hcurr2 : L.out_size_ ≤ curr2.length)
    (hpo : L.in_size_ ≤ prev_out.length) :
    omap (fun c => do
      let s ← osum L.out_size_ (fun r => do
        let x ← curr2[r]?
        let w ← L.W_[c * L.out_size_ + r]?
        pure (x * sqr w))
      let po ← prev_out[c]?
      pure (s * sqr (u.activation.df po))) L.in_size_ =
    some (prevDelta2Spec L u curr2 prev_out) := by
  rw [prevDelta2Spec]
  refine omap_eq (fun c hc => ?_)
  have hrow := row_bound L hW hc
  have hsum : osum L.out_size_ (fun r => do
      let x ← curr2[r]?
      let w ← L.W_[c * L.out_size_ + r]?
      pure (x * sqr w)) =
      some (((List.range L.out_size_).map
        (fun r => curr2.getD r 0 * sqr (L.W_.getD (c * L.out_size_ + r) 0))).sum) := by
    refine osum_eq (fun r hr => ?_)
    rw [getElem?_eq_some_getD (lt_of_lt_of_le hr hcurr2),
      getElem?_eq_some_getD (show c * L.out_size_ + r < L.W_.length by omega)]
    rfl
  rw [hsum, getElem?_eq_some_getD (lt_of_lt_of_le hc hpo)]
  rfl

/-- C4: the second-order pass adds `currDelta2[r]*upstreamOutput[c]^2`
to `WHessian[c*out_size+r]` for every input `c` and output `r`, adds
`currDelta2[r]` to `bHessian[r]` when `hasBias` (leaving it untouched
otherwise), overwrites the propagated buffer with
`prevDelta2[c] = (Σ_r currDelta2[r]*W[c*out_size+r]^2) *
upstream.activation.df(upstreamOutput[c])^2` — the `prevDelta2Spec`
formula — and then recurses into the upstream node's second-order
backward pass with `prevDelta2`. -/
theorem back_propagation_2nd_spec (L : fully_connected_layer) (curr2 : List ℚ)
    (u : upstream_node) (prev_out : List ℚ)
    (hu : L.prev_ = some u)
    (hout : u.output 0 = some prev_out)
    (hW : L.W_.length = L.in_size_ * L.out_size_)
    (hcurr2 : L.out_size_ ≤ curr2.length)
    (hpo : L.in_size_ ≤ prev_out.length)
    (hWh : L.Whessian_.length = L.in_size_ * L.out_size_)
    (hbh : L.has_bias_ = true → L.out_size_ ≤ L.bhessian_.length) :
    ∃ Wh bh,
      back_propagation_2nd L curr2 =
        (u.back2 (prevDelta2Spec L u curr2 prev_out)).map
          (fun res => (h2_state L Wh bh (prevDelta2Spec L u curr2 prev_out), res)) ∧
      Wh.length = L.Whessian_.length ∧ bh.length = L.bhessian_.length ∧
      (∀ c < L.in_size_, ∀ r < L.out_size_,
        Wh.getD (c * L.out_size_ + r) 0 =
          L.Whessian_.getD (c * L.out_size_ + r) 0 +
            curr2.getD r 0 * sqr (prev_out.getD c 0)) ∧
      (L.has_bias_ = true → ∀ r < L.out_size_,
        bh.getD r 0 = L.bhessian_.getD r 0 + curr2.getD r 0) ∧
      (L.has_bias_ = false → bh = L.bhessian_) := by
  obtain ⟨Wh, hWheq, hWhlen, hWhprop, _⟩ :=
    outer_accum_spec curr2 prev_out sqr L.out_size_ L.in_size_ L.Whessian_
      hcurr2 hpo (le_of_eq hWh.symm)
  have hpd2 := prev_delta2_eq L u curr2 prev_out hW hcurr2 hpo
  simp only [Option.bind_eq_bind, Option.pure_def] at hpd2
  cases hbias : L.has_bias_ with
  | false =>
      refine ⟨Wh, L.bhessian_, ?_, hWhlen, rfl,
        hWhprop, fun ht => by simp [hbias] at ht, fun _ => rfl⟩
      rw [back_propagation_2nd, hu]
      simp only [Option.bind_eq_bind, Option.some_bind]
      rw [hout]
      simp only [Option.some_bind]
      rw [hWheq]
      simp only [Option.some_bind, hbias, Bool.false_eq_true, if_false]
      simp only [pure, Option.some_bind]
      rw [hpd2]
      simp only [Option.some_bind]
      cases u.back2 (prevDelta2Spec L u curr2 prev_out) <;> rfl
  | true =>
      obtain ⟨bh, hbheq, hbhlen, hbhprop, _⟩ :=
        vec_add_into_spec curr2 L.out_size_ L.bhessian_ hcurr2 (hbh hbias)
      refine ⟨Wh, bh, ?_, hWhlen,
        hbhlen, hWhprop, fun _ r hr => hbhprop r hr,
        fun hf => by simp [hbias] at hf⟩
      rw [back_propagation_2nd, hu]
      simp only [Option.bind_eq_bind, Option.pure_def, Option.some_bind]
      rw [hout]
      simp only [Option.some_bind]
      rw [hWheq]
      simp only [Option.some_bind, hbias, if_true]
      rw [hbheq]
      simp only [Option.some_bind]
      rw [hpd2]
      simp only [Option.some_bind]
      cases u.back2 (prevDelta2Spec L u curr2 prev_out) <;> rfl

/-- Witness for C4: on `exB` (`W=[3]`, `Whessian=[100]`, `bhessian=[200]`,
upstream output `[2]`) with `currDelta2 = [9]`, the second-order pass
satisfies the stated accumulation and propagation equations
(`Whessian` becomes `[100 + 9*4] = [136]`, `bhessian` `[209]`,
`prevDelta2 = [9*9*4] = [324]`). -/
theorem back_propagation_2nd_spec_witness :
    ∃ Wh bh,
      back_propagation_2nd exB [9] =
        (exU.back2 (prevDelta2Spec exB exU [9] [2])).map
          (fun res => (h2_state exB Wh bh (prevDelta2Spec exB exU [9] [2]), res)) ∧
      Wh.length = exB.Whessian_.length ∧ bh.length = exB.bhessian_.length ∧
      (∀ c < exB.in_size_, ∀ r < exB.out_size_,
        Wh.getD (c * exB.out_size_ + r) 0 =
          exB.Whessian_.getD (c * exB.out_size_ + r) 0 +
            ([9] : List ℚ).getD r 0 * sqr (([2] : List ℚ).getD c 0)) ∧
      (exB.has_bias_ = true → ∀ r < exB.out_size_,
        bh.getD r 0 = exB.bhessian_.getD r 0 + ([9] : List ℚ).getD r 0) ∧
      (exB.has_bias_ = false → bh = exB.bhessian_) :=
  back_propagation_2nd_spec exB [9] exU [2] rfl rfl
    (by decide) (by decide) (by decide) (by decide) (fun _ => by decide)

/-- C9: the query operations are pure functions of the layer value and
return `connection_size() = in_size*out_size + (hasBias ? out_size : 0)`,
`fan_in_size() = in_size` and `fan_out_size() = out_size`. -/
theorem query_surface_spec :
    ∀ L : fully_connected_layer,
      connection_size L =
        L.in_size_ * L.out_size_ + (if L.has_bias_ then L.out_size_ else 0) ∧
      fan_in_size L = L.in_size_ ∧
      fan_out_size L = L.out_size_ := by
  intro L
  refine ⟨?_, rfl, rfl⟩
  cases h : L.has_bias_ <;> simp [connection_size, h]

/-! Dimension handling: the code performs no length check. -/

lemma osum_congr {n : ℕ} {f g : ℕ → Option ℚ}
    (h : ∀ c < n, f c = g c) : osum n f = osum n g := by
  induction n with
  | zero => rfl
  | succ n ih =>
      rw [osum, osum, ih (fun c hc => h c (Nat.lt_succ_of_lt hc)),
        h n (Nat.lt_succ_self n)]

lemma omap_congr {f g : ℕ → Option ℚ} {n : ℕ}
    (h : ∀ i < n, f i = g i) : omap f n = omap g n := by
  induction n with
  | zero => rfl
  | succ n ih =>
      rw [omap, omap, ih (fun i hi => h i (Nat.lt_succ_of_lt hi)),
        h n (Nat.lt_succ_self n)]

lemma getElem?_take_lt {l : List ℚ} {n i : ℕ} (h : i < n) :
    (l.take n)[i]? = l[i]? := by
  rw [List.getElem?_take, if_pos h]

lemma vdot_take (curr W : List ℚ) (base n : ℕ) :
    vdot curr W base n = vdot (curr.take n) W base n := by
  rw [vdot, vdot]
  refine osum_congr (fun r hr => ?_)
  rw [getElem?_take_lt hr]

lemma muladd_go_take (src : List ℚ) (fac : ℚ) (base n : ℕ) :
    ∀ k off dst, off + k ≤ n →
      muladd_go src fac base off k dst = muladd_go (src.take n) fac base off k dst := by
  intro k
  induction k with
  | zero => intro off dst _; rfl
  | succ k ih =>
      intro off dst h
      rw [muladd_go, muladd_go, getElem?_take_lt (show off < n by omega)]
      cases hx : src[off]? with
      | none => rfl
      | some x =>
          simp only [Option.bind_eq_bind, Option.some_bind]
          cases hold : dst[base + off]? with
          | none => rfl
          | some old =>
              simp only [Option.some_bind]
              exact ih (off + 1) _ (by omega)

lemma outer_accum_take (curr : List ℚ) (g : ℚ → ℚ) (src : List ℚ) (out_n : ℕ) :
    ∀ cnt dst,
      outer_accum curr g src out_n cnt dst =
        outer_accum (curr.take out_n) g src out_n cnt dst := by
  intro cnt
  induction cnt with
  | zero => intro dst; rfl
  | succ cnt ih =>
      intro dst
      rw [outer_accum, outer_accum, ih]
      cases hd : outer_accum (curr.take out_n) g src out_n cnt dst with
      | none => rfl
      | some d =>
          simp only [Option.bind_eq_bind, Option.some_bind]
          cases hs : src[cnt]? with
          | none => rfl
          | some s =>
              simp only [Option.some_bind]
              exact muladd_go_take curr (g s) (cnt * out_n) out_n out_n 0 d (by omega)

lemma vec_add_into_take (src : List ℚ) (n : ℕ) :
    ∀ k dst, k ≤ n → vec_add_into src k dst = vec_add_into (src.take n) k dst := by
  intro k
  induction k with
  | zero => intro dst _; rfl
  | succ k ih =>
      intro dst h
      rw [vec_add_into, vec_add_into, ih dst (by omega)]
      cases hd : vec_add_into (src.take n) k dst with
      | none => rfl
      | some d =>
          simp only [Option.bind_eq_bind, Option.some_bind]
          rw [getElem?_take_lt (show k < n by omega)]

lemma fc_preactivation_take (L : fully_connected_layer) (input : List ℚ) :
    fc_preactivation L input = fc_preactivation L (input.take L.in_size_) := by
  rw [fc_preactivation, fc_preactivation]
  refine omap_congr (fun i _ => ?_)
  rw [fc_a_i, fc_a_i]
  have hs : osum L.in_size_ (fun c => do
      let w ← L.W_[c * L.out_size_ + i]?
      let x ← input[c]?
      pure (w * x)) = osum L.in_size_ (fun c => do
      let w ← L.W_[c * L.out_size_ + i]?
      let x ← (input.take L.in_size_)[c]?
      pure (w * x)) := by
    refine osum_congr (fun c hc => ?_)
    simp [List.getElem?_take, hc]
  rw [hs]

/-- C5 counterexample: on the 1×1 layer `exL5` (`in_size = 1`), the input
`[2,5]` has the wrong length, yet `forward_propagation` does not fail:
it returns `some [2]`, the very result it produces on the silently
truncated input `[2]`. -/
theorem dimension_check_cex :
    ([2, 5] : List ℚ).length ≠ exL5.in_size_ ∧
    (forward_propagation exL5 [2, 5] 0).map (fun p => p.2) = some [2] ∧
    forward_propagation exL5 [2, 5] 0 = forward_propagation exL5 [2] 0 :=
  ⟨by decide, by with_unfolding_all rfl, by with_unfolding_all rfl⟩

/-- C5 amended: the propagation operations perform no dimension check
and never signal an `InvalidDimension` condition: a vector longer than
the expected length — `in_size` for the forward input, `out_size` for
the backward delta and the second-order delta — is accepted and
silently truncated, each operation computing exactly what it computes
on the vector's first expected-length elements. -/
theorem propagation_no_dim_check :
    (∀ (L : fully_connected_layer) (input : List ℚ) (idx : ℕ),
      forward_propagation L input idx =
        forward_propagation L (input.take L.in_size_) idx) ∧
    (∀ (L : fully_connected_layer) (curr : List ℚ) (idx : ℕ),
      back_propagation L curr idx =
        back_propagation L (curr.take L.out_size_) idx) ∧
    (∀ (L : fully_connected_layer) (curr2 : List ℚ),
      back_propagation_2nd L curr2 =
        back_propagation_2nd L (curr2.take L.out_size_)) := by
  refine ⟨?_, ?_, ?_⟩
  · intro L input idx
    rw [forward_propagation, forward_propagation]
    cases hws : get_worker_storage L idx with
    | none => rfl
    | some ws =>
        simp only [Option.bind_eq_bind, Option.some_bind]
        rw [fc_preactivation_take]
  · intro L curr idx
    rw [back_propagation, back_propagation, get_worker_storage]
    cases hws : L.worker_storage_[idx]? with
    | none => rfl
    | some ws =>
        simp only [Option.bind_eq_bind, Option.pure_def, Option.some_bind]
        cases hu : L.prev_ with
        | none => rfl
        | some u =>
            simp only [Option.some_bind]
            cases hout : u.output idx with
            | none => rfl
            | some prev_out =>
                simp only [Option.some_bind]
                have homap : omap (fun c => do
                    let d ← vdot curr L.W_ (c * L.out_size_) L.out_size_
                    let po ← prev_out[c]?
                    pure (d * u.activation.df po)) L.in_size_ =
                    omap (fun c => do
                    let d ← vdot (curr.take L.out_size_) L.W_ (c * L.out_size_) L.out_size_
                    let po ← prev_out[c]?
                    pure (d * u.activation.df po)) L.in_size_ :=
                  omap_congr (fun c _ => by rw [vdot_take])
                simp only [Option.bind_eq_bind, Option.pure_def] at homap
                have houter :=
                  outer_accum_take curr (fun x => x) prev_out L.out_size_ L.in_size_ ws.dW_
                have hvec :=
                  vec_add_into_take curr L.out_size_ L.out_size_ ws.db_ (le_refl _)
                rw [homap]
                simp only [houter, hvec]
  · intro L curr2
    rw [back_propagation_2nd, back_propagation_2nd]
    cases hu : L.prev_ with
    | none => rfl
    | some u =>
        simp only [Option.bind_eq_bind, Option.pure_def, Option.some_bind]
        cases hout : u.output 0 with
        | none => rfl
        | some prev_out =>
            simp only [Option.some_bind]
            have homap : omap (fun c => do
                let s ← osum L.out_size_ (fun r => do
                  let x ← curr2[r]?
                  let w ← L.W_[c * L.out_size_ + r]?
                  pure (x * sqr w))
                let po ← prev_out[c]?
                pure (s * sqr (u.activation.df po))) L.in_size_ =
                omap (fun c => do
                let s ← osum L.out_size_ (fun r => do
                  let x ← (curr2.take L.out_size_)[r]?
                  let w ← L.W_[c * L.out_size_ + r]?
                  pure (x * sqr w))
                let po ← prev_out[c]?
                pure (s * sqr (u.activation.df po))) L.in_size_ := by
              refine omap_congr (fun c _ => ?_)
              have hs : osum L.out_size_ (fun r => do
                  let x ← curr2[r]?
                  let w ← L.W_[c * L.out_size_ + r]?
                  pure (x * sqr w)) =
                  osum L.out_size_ (fun r => do
                  let x ← (curr2.take L.out_size_)[r]?
                  let w ← L.W_[c * L.out_size_ + r]?
                  pure (x * sqr w)) :=
                osum_congr (fun r hr => by rw [getElem?_take_lt hr])
              rw [hs]
            simp only [Option.bind_eq_bind, Option.pure_def] at homap
            have houter :=
              outer_accum_take curr2 sqr prev_out L.out_size_ L.in_size_ L.Whessian_
            have hvec :=
              vec_add_into_take curr2 L.out_size_ L.out_size_ L.bhessian_ (le_refl _)
            rw [homap]
            simp only [houter, hvec]

/-! Frame effects of the forward pass. -/

lemma forward_propagation_some (L : fully_connected_layer) (input : List ℚ)
    (idx : ℕ) (L' : fully_connected_layer) (ret : List ℚ)
    (h : forward_propagation L input idx = some (L', ret)) :
    ∃ ws a, L.worker_storage_[idx]? = some ws ∧ fc_preactivation L input = some a ∧
      L' = upd_worker L idx
        (fwd_ws ws a ((List.range L.out_size_).map (fun i => L.h_.f a i))) := by
  rw [forward_propagation, get_worker_storage] at h
  simp only [Option.bind_eq_bind, Option.pure_def] at h
  cases hws : L.worker_storage_[idx]? with
  | none => rw [hws] at h; simp at h
  | some ws =>
      rw [hws] at h
      simp only [Option.some_bind] at h
      cases hpre : fc_preactivation L input with
      | none => rw [hpre] at h; simp at h
      | some a =>
          rw [hpre] at h
          simp only [Option.some_bind] at h
          refine ⟨ws, a, rfl, rfl, ?_⟩
          cases hnx : L.next_ with
          | none =>
              rw [hnx] at h
              exact (congrArg Prod.fst (Option.some.inj h)).symm
          | some nxt =>
              rw [hnx] at h
              have h' : (nxt ((List.range L.out_size_).map fun i => L.h_.f a i) idx).bind
                  (fun res => some (upd_worker L idx
                    (fwd_ws ws a ((List.range L.out_size_).map fun i => L.h_.f a i)), res)) =
                  some (L', ret) := h
              cases hr : nxt ((List.range L.out_size_).map fun i => L.h_.f a i) idx with
              | none => rw [hr] at h'; simp at h'
              | some r =>
                  rw [hr] at h'
                  simp only [Option.some_bind] at h'
                  exact (congrArg Prod.fst (Option.some.inj h')).symm

/-- C7: a successful `forward_propagation` call mutates only this
layer's worker storage for the given worker id, and there only the
pre-activation and output buffers: the weights `W_`, bias `b_`, the
Hessian accumulators, `prev_delta2_`, the dimensions and flag, every
other worker's storage, and even the same worker's `prev_delta_`,
`dW_` and `db_` are unchanged. -/
theorem forward_propagation_frame (L : fully_connected_layer) (input : List ℚ)
    (idx : ℕ) (L' : fully_connected_layer) (ret : List ℚ)
    (h : forward_propagation L input idx = some (L', ret)) :
    L'.W_ = L.W_ ∧ L'.b_ = L.b_ ∧ L'.Whessian_ = L.Whessian_ ∧
    L'.bhessian_ = L.bhessian_ ∧ L'.prev_delta2_ = L.prev_delta2_ ∧
    L'.in_size_ = L.in_size_ ∧ L'.out_size_ = L.out_size_ ∧
    L'.has_bias_ = L.has_bias_ ∧ L'.prev_ = L.prev_ ∧ L'.next_ = L.next_ ∧
    L'.worker_storage_.length = L.worker_storage_.length ∧
    (∀ j, j ≠ idx → L'.worker_storage_[j]? = L.worker_storage_[j]?) ∧
    (∀ ws ws', L.worker_storage_[idx]? = some ws →
      L'.worker_storage_[idx]? = some ws' →
      ws'.prev_delta_ = ws.prev_delta_ ∧ ws'.dW_ = ws.dW_ ∧ ws'.db_ = ws.db_) := by
  obtain ⟨ws, a, hws, hpre, hL'⟩ := forward_propagation_some L input idx L' ret h
  have hidx : idx < L.worker_storage_.length := (List.getElem?_eq_some.mp hws).1
  subst hL'
  refine ⟨rfl, rfl, rfl, rfl, rfl, rfl, rfl, rfl, rfl, rfl, ?_, ?_, ?_⟩
  · simp [upd_worker]
  · intro j hj
    simp only [upd_worker]
    rw [List.getElem?_set, if_neg (fun he : idx = j => hj he.symm)]
  · intro ws0 ws0' h0 h1
    rw [hws] at h0
    have hws0 : ws0 = ws := (Option.some.inj h0).symm
    have h1' : (L.worker_storage_.set idx
        (fwd_ws ws a ((List.range L.out_size_).map (fun i => L.h_.f a i))))[idx]? =
        some ws0' := h1
    rw [List.getElem?_set] at h1'
    simp only [if_pos rfl, hidx, if_true] at h1'
    have hws0' : ws0' = fwd_ws ws a ((List.range L.out_size_).map (fun i => L.h_.f a i)) :=
      (Option.some.inj h1').symm
    subst hws0
    subst hws0'
    exact ⟨rfl, rfl, rfl⟩

/-- Witness for C7: the worked-example forward call
`forward_propagation exL [2,4] 0 = some (exLf, [-0.9])`; the frame
conditions hold between `exLf` and `exL`. -/
theorem forward_propagation_frame_witness :
    exLf.W_ = exL.W_ ∧ exLf.b_ = exL.b_ ∧ exLf.Whessian_ = exL.Whessian_ ∧
    exLf.bhessian_ = exL.bhessian_ ∧ exLf.prev_delta2_ = exL.prev_delta2_ ∧
    exLf.in_size_ = exL.in_size_ ∧ exLf.out_size_ = exL.out_size_ ∧
    exLf.has_bias_ = exL.has_bias_ ∧ exLf.prev_ = exL.prev_ ∧ exLf.next_ = exL.next_ ∧
    exLf.worker_storage_.length = exL.worker_storage_.length ∧
    (∀ j, j ≠ 0 → exLf.worker_storage_[j]? = exL.worker_storage_[j]?) ∧
    (∀ ws ws', exL.worker_storage_[0]? = some ws →
      exLf.worker_storage_[0]? = some ws' →
      ws'.prev_delta_ = ws.prev_delta_ ∧ ws'.dW_ = ws.dW_ ∧ ws'.db_ = ws.db_) :=
  forward_propagation_frame exL [2, 4] 0 exLf [-9/10] (by with_unfolding_all rfl)

/-! Absent upstream node. -/

lemma back_propagation_prev_none (L : fully_connected_layer) (v : List ℚ)
    (idx : ℕ) (h : L.prev_ = none) : back_propagation L v idx = none := by
  rw [back_propagation, get_worker_storage]
  cases hws : L.worker_storage_[idx]? with
  | none => rfl
  | some ws =>
      simp only [Option.bind_eq_bind, Option.some_bind]
      rw [h]
      rfl

lemma back_propagation_2nd_prev_none (L : fully_connected_layer) (v : List ℚ)
    (h : L.prev_ = none) : back_propagation_2nd L v = none := by
  rw [back_propagation_2nd, h]
  rfl

/-- C8: when the required upstream (`prev_`) reference is absent, both
recursive backward traversals surface the malformed-chain condition
immediately to the caller (the failure value `none`), with no local
recovery and no swallowing. -/
theorem malformed_chain_spec (L : fully_connected_layer) (v : List ℚ) (idx : ℕ)
    (h : L.prev_ = none) :
    back_propagation L v idx = none ∧ back_propagation_2nd L v = none :=
  ⟨back_propagation_prev_none L v idx h, back_propagation_2nd_prev_none L v h⟩

/-- Witness for C8: the terminal layer `exL` has no upstream node, and
both backward passes on it fail immediately. -/
theorem malformed_chain_spec_witness :
    back_propagation exL [1] 0 = none ∧ back_propagation_2nd exL [1] = none :=
  malformed_chain_spec exL [1] 0 rfl

/-! No-bias isolation. -/

lemma back_propagation_db_frame (L : fully_connected_layer) (curr : List ℚ)
    (idx : ℕ) (L' : fully_connected_layer) (res : List ℚ)
    (hbias : L.has_bias_ = false)
    (h : back_propagation L curr idx = some (L', res)) :
    ∀ ws ws', L.worker_storage_[idx]? = some ws →
      L'.worker_storage_[idx]? = some ws' → ws'.db_ = ws.db_ := by
  rw [back_propagation, get_worker_storage] at h
  simp only [Option.bind_eq_bind, Option.pure_def, hbias, Bool.false_eq_true,
    if_false, Option.some_bind] at h
  rw [Option.bind_eq_some] at h
  obtain ⟨ws0, hws0, h⟩ := h
  rw [Option.bind_eq_some] at h
  obtain ⟨u, hu, h⟩ := h
  rw [Option.bind_eq_some] at h
  obtain ⟨prev_out, hpo, h⟩ := h
  rw [Option.bind_eq_some] at h
  obtain ⟨pd, hpd, h⟩ := h
  rw [Option.bind_eq_some] at h
  obtain ⟨dW, hdW, h⟩ := h
  rw [Option.bind_eq_some] at h
  obtain ⟨r, hr, h⟩ := h
  have hL' : upd_worker L idx (bp_ws ws0 pd dW ws0.db_) = L' :=
    congrArg Prod.fst (Option.some.inj h)
  have hidx : idx < L.worker_storage_.length := (List.getElem?_eq_some.mp hws0).1
  subst hL'
  intro ws1 ws1' h0 h1
  have hws1 : ws1 = ws0 := Option.some.inj (h0.symm.trans hws0)
  have h1' : (L.worker_storage_.set idx (bp_ws ws0 pd dW ws0.db_))[idx]? =
      some ws1' := h1
  rw [List.getElem?_set, if_pos rfl, if_pos hidx] at h1'
  have hws1' : ws1' = bp_ws ws0 pd dW ws0.db_ := (Option.some.inj h1').symm
  rw [hws1, hws1']
  rfl

lemma back_propagation_2nd_bh_frame (L : fully_connected_layer) (curr2 : List ℚ)
    (L' : fully_connected_layer) (res : List ℚ)
    (hbias : L.has_bias_ = false)
    (h : back_propagation_2nd L curr2 = some (L', res)) :
    L'.bhessian_ = L.bhessian_ := by
  rw [back_propagation_2nd] at h
  simp only [Option.bind_eq_bind, Option.pure_def, hbias, Bool.false_eq_true,
    if_false, Option.some_bind] at h
  rw [Option.bind_eq_some] at h
  obtain ⟨u, hu, h⟩ := h
  rw [Option.bind_eq_some] at h
  obtain ⟨prev_out, hpo, h⟩ := h
  rw [Option.bind_eq_some] at h
  obtain ⟨Wh, hWh, h⟩ := h
  rw [Option.bind_eq_some] at h
  obtain ⟨pd2, hpd2, h⟩ := h
  rw [Option.bind_eq_some] at h
  obtain ⟨r, hr, h⟩ := h
  have hL' : h2_state L Wh L.bhessian_ pd2 = L' :=
    congrArg Prod.fst (Option.some.inj h)
  rw [← hL']
  rfl

/-- C6: for a layer constructed with `hasBias = false`, the bias-related
buffers `b`, `db`, `bHessian` are zero-length; the forward pre-activation
is the pure matrix-vector contribution `Σ_c W[c*out_size+i]*input[c]`
with no bias term ever added; and the backward passes leave `db` and
`bHessian` unchanged. -/
theorem no_bias_isolation_spec :
    (∀ (ind outd : ℕ) (h : activation_function) (nw : ℕ),
      (mk_fully_connected_layer ind outd false h nw).b_ = [] ∧
      (mk_fully_connected_layer ind outd false h nw).bhessian_ = [] ∧
      ∀ w ∈ (mk_fully_connected_layer ind outd false h nw).worker_storage_,
        w.db_ = []) ∧
    (∀ (L : fully_connected_layer) (input : List ℚ),
      L.has_bias_ = false → L.W_.length = L.in_size_ * L.out_size_ →
      L.in_size_ ≤ input.length →
      fc_preactivation L input =
        some ((List.range L.out_size_).map (fun i =>
          ((List.range L.in_size_).map
            (fun c => L.W_.getD (c * L.out_size_ + i) 0 * input.getD c 0)).sum))) ∧
    (∀ (L : fully_connected_layer) (curr : List ℚ) (idx : ℕ)
      (L' : fully_connected_layer) (res : List ℚ), L.has_bias_ = false →
      back_propagation L curr idx = some (L', res) →
      ∀ ws ws', L.worker_storage_[idx]? = some ws →
        L'.worker_storage_[idx]? = some ws' → ws'.db_ = ws.db_) ∧
    (∀ (L : fully_connected_layer) (curr2 : List ℚ)
      (L' : fully_connected_layer) (res : List ℚ), L.has_bias_ = false →
      back_propagation_2nd L curr2 = some (L', res) →
      L'.bhessian_ = L.bhessian_) := by
  refine ⟨?_, ?_, ?_, ?_⟩
  · intro ind outd h nw
    refine ⟨rfl, rfl, ?_⟩
    intro w hw
    have hw' := List.mem_replicate.mp hw
    rw [hw'.2]
    rfl
  · intro L input hbias hW hin
    rw [fc_preactivation_eq L input hW hin
      (fun ht => absurd (hbias ▸ ht) (by simp))]
    have hfun : denseA L input = fun i =>
        ((List.range L.in_size_).map
          (fun c => L.W_.getD (c * L.out_size_ + i) 0 * input.getD c 0)).sum :=
      funext (fun i => by simp [denseA, hbias])
    rw [hfun]
  · exact fun L curr idx L' res hb h =>
      back_propagation_db_frame L curr idx L' res hb h
  · exact fun L curr2 L' res hb h =>
      back_propagation_2nd_bh_frame L curr2 L' res hb h

/-- Witness for C6: the no-bias constructor yields empty bias buffers;
on `exL5` (no bias, `W=[1]`) the pre-activation of input `[2]` is the
pure product; the concrete backward runs on `exB0` leave `db` and
`bHessian` unchanged. -/
theorem no_bias_isolation_spec_witness :
    (mk_fully_connected_layer 2 1 false idAct 1).b_ = [] ∧
    (mk_fully_connected_layer 2 1 false idAct 1).bhessian_ = [] ∧
    fc_preactivation exL5 [2] =
      some ((List.range exL5.out_size_).map (fun i =>
        ((List.range exL5.in_size_).map
          (fun c => exL5.W_.getD (c * exL5.out_size_ + i) 0 *
            ([2] : List ℚ).getD c 0)).sum)) ∧
    exwsB0'.db_ = exwsB0.db_ ∧
    exB0h.bhessian_ = exB0.bhessian_ :=
  ⟨(no_bias_isolation_spec.1 2 1 idAct 1).1,
   (no_bias_isolation_spec.1 2 1 idAct 1).2.1,
   no_bias_isolation_spec.2.1 exL5 [2] rfl (by decide) (by decide),
   no_bias_isolation_spec.2.2.1 exB0 [7] 0 exB0' [42] rfl
     (by with_unfolding_all rfl) exwsB0 exwsB0' rfl rfl,
   no_bias_isolation_spec.2.2.2 exB0 [9] exB0h [324] rfl
     (by with_unfolding_all rfl)⟩

/-! The second-order pass reads only the worker-0 upstream cache. -/

lemma option_map_bind {α β γ : Type} (x : Option α) (f : α → Option β) (g : β → γ) :
    (x.bind f).map g = x.bind (fun a => (f a).map g) := by
  cases x <;> rfl

lemma back_2nd_view (L : fully_connected_layer) (u : upstream_node) (curr2 : List ℚ)
    (hu : L.prev_ = some u) :
    (back_propagation_2nd L curr2).map hess_view =
      back2_core L.in_size_ L.out_size_ L.has_bias_ L.W_ L.Whessian_ L.bhessian_
        (u.output 0) u.activation.df u.back2 curr2 := by
  rw [back_propagation_2nd, back2_core, hu]
  simp only [Option.bind_eq_bind, Option.pure_def, Option.some_bind,
    option_map_bind, apply_ite, Option.map_some', hess_view, h2_state]

/-- C10: the second-order pass reads the upstream output cached for
worker id 0 only — its observable outcome is unchanged when the upstream
node is replaced by one agreeing at worker id 0, and a forward pass run
on the layer under any worker id leaves its second-order computation
unaffected. -/
theorem back_propagation_2nd_worker_zero_spec :
    (∀ (L : fully_connected_layer) (u u' : upstream_node) (curr2 : List ℚ),
      u.output 0 = u'.output 0 → u.activation = u'.activation →
      u.back2 = u'.back2 →
      (back_propagation_2nd { L with prev_ := some u } curr2).map hess_view =
        (back_propagation_2nd { L with prev_ := some u' } curr2).map hess_view) ∧
    (∀ (L : fully_connected_layer) (input : List ℚ) (j : ℕ)
      (L' : fully_connected_layer) (ret curr2 : List ℚ),
      forward_propagation L input j = some (L', ret) →
      (back_propagation_2nd L' curr2).map hess_view =
        (back_propagation_2nd L curr2).map hess_view) := by
  constructor
  · intro L u u' curr2 hout hact hb2
    rw [back_2nd_view { L with prev_ := some u } u curr2 rfl,
      back_2nd_view { L with prev_ := some u' } u' curr2 rfl,
      hout, hact, hb2]
  · intro L input j L' ret curr2 h
    obtain ⟨ws, a, hws, hpre, hL'⟩ := forward_propagation_some L input j L' ret h
    subst hL'
    cases hu : L.prev_ with
    | none =>
        rw [back_propagation_2nd_prev_none _ curr2 hu,
          back_propagation_2nd_prev_none _ curr2
            (show (upd_worker L j (fwd_ws ws a
              ((List.range L.out_size_).map (fun i => L.h_.f a i)))).prev_ = none from hu)]
    | some u =>
        rw [back_2nd_view _ u curr2
            (show (upd_worker L j (fwd_ws ws a
              ((List.range L.out_size_).map (fun i => L.h_.f a i)))).prev_ = some u from hu),
          back_2nd_view L u curr2 hu]
        rfl

/-- Witness for C10: replacing `exU` by `exU2` (same worker-0 cache,
different caches elsewhere) leaves the second-order outcome on `exB`
unchanged, and the worked-example forward call (`exL` to `exLf`) leaves
the second-order outcome unchanged. -/
theorem back_propagation_2nd_worker_zero_spec_witness :
    ((back_propagation_2nd { exB with prev_ := some exU } [9]).map hess_view =
      (back_propagation_2nd { exB with prev_ := some exU2 } [9]).map hess_view) ∧
    ((back_propagation_2nd exLf [9]).map hess_view =
      (back_propagation_2nd exL [9]).map hess_view) :=
  ⟨back_propagation_2nd_worker_zero_spec.1 exB exU exU2 [9] rfl rfl rfl,
   back_propagation_2nd_worker_zero_spec.2 exL [2, 4] 0 exLf [-9/10] [9]
     (by with_unfolding_all rfl)⟩

end TinyCnn
